import Mathlib

/-!
Verification of the move-generation engine of the Scrabble-like game
(`solver.py`).  The board and the letter-tree collaborators are not part of
the given sources, so they are modelled from the specification's interface
contract (§6): the board offers `is_filled` / `is_empty` / `in_bounds` /
`get_tile` / `all_positions` / `calculate_score`, the lexicon offers
`lookup`, `is_word`, `children` and `root`.

Loops of the source are embedded as fuel-indexed structural recursions; each
call site passes fuel that provably dominates the loop's running time (the
board side for the scans, `sizeOf` of the trie node for the forward
extension), so the zero-fuel branches are dead at every reachable call.
-/

namespace Scrab

abbrev Pos := Int × Int

inductive Direction where
  | across
  | down
deriving DecidableEq, Repr

/-- Modelled from the spec: the Lexicon node (letter_tree.py is absent from the
sources); a node carries `is_word` and its outgoing labelled edges (§6). -/
inductive Trie where
  | mk (is_word : Bool) (children : List (Char × Trie))

def Trie.is_word : Trie → Bool
  | .mk w _ => w

def Trie.children : Trie → List (Char × Trie)
  | .mk _ cs => cs

mutual
/-- Structural size of a trie, the fuel passed to the forward extension. -/
def Trie.size : Trie → Nat
  | .mk _ cs => Trie.sizeL cs + 1
def Trie.sizeL : List (Char × Trie) → Nat
  | [] => 0
  | (_, t) :: rest => t.size + Trie.sizeL rest + 1
end

/-- Modelled from the spec: `root` is the empty-prefix node (§6). -/
def Trie.root (t : Trie) : Trie := t

/-- Modelled from the spec: `lookup(prefix)` returns the node reached by the
exact prefix, or an absent marker (§6). -/
def Trie.lookup : Trie → List Char → Option Trie
  | t, [] => some t
  | t, c :: cs =>
    match t.children.lookup c with
    | some t2 => t2.lookup cs
    | none => none

/-- Modelled from the spec: the dictionary-membership test `is_word(word)`
used by the cross-check (§4.1, §6). -/
def Trie.is_word_str (t : Trie) (w : List Char) : Bool :=
  match t.lookup w with
  | some n => n.is_word
  | none => false

/-- Fuel-indexed well-formedness check: edge keys of every node are distinct,
as the spec's contract states (§6: "keys unique"). -/
def wfbF : Nat → Trie → Bool
  | 0, _ => false
  | fuel + 1, .mk _ cs =>
    decide ((cs.map Prod.fst).Nodup) && cs.all (fun p => wfbF fuel p.2)

def Trie.wfb (t : Trie) : Bool := wfbF t.size t

/-- Well-formed trie: some fuel certifies the unique-keys contract. -/
def Trie.WFp (t : Trie) : Prop := ∃ fuel, wfbF fuel t = true

/-- Modelled from the spec: the Board collaborator (board.py is absent from the
sources); a square grid of side `size`, an association of filled positions to
their letters, and the (abstract) scoring function (§6). -/
structure Board where
  size : Nat
  tiles : List (Pos × Char)
  calculate_score : List Char → Pos → Direction → List Char → Int

def Board.in_bounds (b : Board) (p : Pos) : Bool :=
  decide (0 ≤ p.1 ∧ p.1 < (b.size : Int) ∧ 0 ≤ p.2 ∧ p.2 < (b.size : Int))

def Board.is_filled (b : Board) (p : Pos) : Bool :=
  b.in_bounds p && (b.tiles.lookup p).isSome

def Board.is_empty (b : Board) (p : Pos) : Bool :=
  b.in_bounds p && !(b.tiles.lookup p).isSome

def Board.get_tile (b : Board) (p : Pos) : Char :=
  (b.tiles.lookup p).getD ' '

def Board.all_positions (b : Board) : List Pos :=
  (List.range b.size).flatMap
    (fun r => (List.range b.size).map (fun c => (Int.ofNat r, Int.ofNat c)))

/-- A recorded move, mirroring the tuple
`(word, start, direction, used_rack, score)` of `legal_move`. -/
structure Move where
  word : List Char
  start : Pos
  direction : Direction
  used_rack : List Char
  score : Int
deriving DecidableEq, Repr

structure SolveState where
  dictionary : Trie
  board : Board
  rack : List Char
  reference_rack : List Char
  cross_check_results : List (Pos × List Char)
  direction : Direction
  found_moves : List Move

/-- `SolveState.__init__`: the rack is kept as given (no validation) and
`reference_rack` is a copy of it. -/
def SolveState.init (dictionary : Trie) (board : Board) (rack : List Char) :
    SolveState :=
  { dictionary := dictionary, board := board, rack := rack,
    reference_rack := rack, cross_check_results := [],
    direction := Direction.across, found_moves := [] }

def before (d : Direction) (p : Pos) : Pos :=
  match d with
  | .across => (p.1, p.2 - 1)
  | .down => (p.1 - 1, p.2)

def after (d : Direction) (p : Pos) : Pos :=
  match d with
  | .across => (p.1, p.2 + 1)
  | .down => (p.1 + 1, p.2)

def before_cross (d : Direction) (p : Pos) : Pos :=
  match d with
  | .across => (p.1 - 1, p.2)
  | .down => (p.1, p.2 - 1)

def after_cross (d : Direction) (p : Pos) : Pos :=
  match d with
  | .across => (p.1 + 1, p.2)
  | .down => (p.1, p.2 + 1)

def alphabet : List Char := "abcdefghijklmnopqrstuvwxyz".toList

def cc_get (cc : List (Pos × List Char)) (p : Pos) : List Char :=
  (cc.lookup p).getD []

/-- The `while is_filled(step(scan_pos))` loop that accumulates a run of
filled letters by prepending (used by `cross_check` with `before_cross` and
by `find_all_options` with `before`). -/
def scan_prepend (b : Board) (step : Pos → Pos) : Nat → Pos → List Char
  | 0, _ => []
  | fuel + 1, p =>
    if b.is_filled (step p) then
      scan_prepend b step fuel (step p) ++ [b.get_tile (step p)]
    else []

/-- The `while is_filled(step(scan_pos))` loop that accumulates a run of
filled letters by appending (used by `cross_check` with `after_cross`). -/
def scan_append (b : Board) (step : Pos → Pos) : Nat → Pos → List Char
  | 0, _ => []
  | fuel + 1, p =>
    if b.is_filled (step p) then
      b.get_tile (step p) :: scan_append b step fuel (step p)
    else []

/-- The per-position body of `cross_check`: both perpendicular runs empty
gives the whole alphabet, otherwise the letters whose completed perpendicular
word is in the dictionary. -/
def legal_letters (dict : Trie) (b : Board) (d : Direction) (p : Pos) :
    List Char :=
  let letters_before := scan_prepend b (before_cross d) b.size p
  let letters_after := scan_append b (after_cross d) b.size p
  if letters_before.length == 0 && letters_after.length == 0 then alphabet
  else alphabet.filter
    (fun letter => dict.is_word_str (letters_before ++ letter :: letters_after))

/-- `SolveState.cross_check`: one entry per non-filled board position. -/
def cross_check (dict : Trie) (b : Board) (d : Direction) :
    List (Pos × List Char) :=
  (b.all_positions.filter (fun p => ! b.is_filled p)).map
    (fun p => (p, legal_letters dict b d p))

/-- `SolveState.find_anchors`: empty positions one of whose four
direction-relative neighbours is filled. -/
def find_anchors (b : Board) (d : Direction) : List Pos :=
  b.all_positions.filter (fun p =>
    b.is_empty p &&
    (b.is_filled (before d p) || b.is_filled (after d p) ||
     b.is_filled (before_cross d p) || b.is_filled (after_cross d p)))

/-- `SolveState.legal_move`: walk `len(word)` steps backwards from `last_pos`
to recover the start, score with the current working rack, and record the
move with `used_rack` computed by removing each working-rack letter from a
copy of the reference rack. -/
def legal_move (st : SolveState) (word : List Char) (last_pos : Pos) :
    SolveState :=
  let play_pos := (before st.direction)^[word.length] last_pos
  let start_pos := after st.direction play_pos
  let score := st.board.calculate_score word start_pos st.direction st.rack
  let used_rack := st.rack.foldl (fun ur letter => ur.erase letter)
    st.reference_rack
  { st with found_moves := st.found_moves ++
      [{ word := word, start := start_pos, direction := st.direction,
         used_rack := used_rack, score := score }] }

/-- The `for next_letter in current_node.children` loop of `extend_after`:
letters present in the rack and in the cross-check set of the square are
consumed, explored through `ea_f`, and restored (removal takes the first
occurrence, restoration appends at the end, as the Python list does). -/
def extend_children
    (ea_f : SolveState → List Char → Trie → Pos → Bool → SolveState)
    (st : SolveState) (partial_word : List Char)
    (cs : List (Char × Trie)) (next_pos : Pos) : SolveState :=
  match cs with
  | [] => st
  | (next_letter, child) :: rest =>
    if next_letter ∈ st.rack ∧
        next_letter ∈ cc_get st.cross_check_results next_pos then
      let st1 := { st with rack := st.rack.erase next_letter }
      let st2 := ea_f st1 (partial_word ++ [next_letter]) child
        (after st1.direction next_pos) true
      let st3 := { st2 with rack := st2.rack ++ [next_letter] }
      extend_children ea_f st3 partial_word rest next_pos
    else extend_children ea_f st partial_word rest next_pos

/-- The position-handling tail of `extend_after`: within bounds, an empty
square is extended through the rack (cross-check constrained) and a filled
square through its existing letter when the trie has that edge. -/
def extend_after_step
    (ea_f : SolveState → List Char → Trie → Pos → Bool → SolveState)
    (st1 : SolveState) (partial_word : List Char) (current_node : Trie)
    (next_pos : Pos) : SolveState :=
  if st1.board.in_bounds next_pos then
    if st1.board.is_empty next_pos then
      extend_children ea_f st1 partial_word current_node.children next_pos
    else
      let existing_letter := st1.board.get_tile next_pos
      match current_node.children.lookup existing_letter with
      | some child =>
        ea_f st1 (partial_word ++ [existing_letter]) child
          (after st1.direction next_pos) true
      | none => st1
  else st1

/-- `SolveState.extend_after`, indexed by fuel; every call site passes the
structural size of the node, which strictly dominates the recursion depth,
so the zero-fuel branch is never taken.  A move is recorded before the
bounds check, exactly as in the source (`is_filled` is false out of
bounds). -/
def extend_after :
    Nat → SolveState → List Char → Trie → Pos → Bool → SolveState
  | 0, st, _, _, _, _ => st
  | fuel + 1, st, partial_word, current_node, next_pos, anchor_filled =>
    let st1 :=
      if (!st.board.is_filled next_pos) && current_node.is_word &&
          anchor_filled then
        legal_move st partial_word (before st.direction next_pos)
      else st
    extend_after_step (fun s w t p af => extend_after fuel s w t p af) st1
      partial_word current_node next_pos

/-- The `for next_letter in current_node.children` loop of `before_part`:
rack letters matching a child edge are consumed, explored through `bp_f`,
and restored. -/
def before_children
    (bp_f : SolveState → List Char → Trie → SolveState)
    (st : SolveState) (partial_word : List Char)
    (cs : List (Char × Trie)) : SolveState :=
  match cs with
  | [] => st
  | (next_letter, child) :: rest =>
    if next_letter ∈ st.rack then
      let st1 := { st with rack := st.rack.erase next_letter }
      let st2 := bp_f st1 (partial_word ++ [next_letter]) child
      let st3 := { st2 with rack := st2.rack ++ [next_letter] }
      before_children bp_f st3 partial_word rest
    else before_children bp_f st partial_word rest

/-- `SolveState.before_part`: always try the forward extension from the
anchor, and while `limit > 0` grow the prefix by one rack letter. -/
def before_part (st : SolveState) (partial_word : List Char)
    (current_node : Trie) (anchor_pos : Pos) : Nat → SolveState
  | 0 =>
    extend_after current_node.size st partial_word current_node anchor_pos
      false
  | l + 1 =>
    let st1 := extend_after current_node.size st partial_word current_node
      anchor_pos false
    before_children
      (fun s w t => before_part s w t anchor_pos l)
      st1 partial_word current_node.children

/-- The `while is_empty(before(scan_pos)) and before(scan_pos) not in anchors`
counting loop of `find_all_options`. -/
def count_limit (b : Board) (d : Direction) (anchors : List Pos) :
    Nat → Pos → Nat
  | 0, _ => 0
  | fuel + 1, p =>
    if b.is_empty (before d p) = true ∧ before d p ∉ anchors then
      count_limit b d anchors fuel (before d p) + 1
    else 0

/-- The per-anchor body of `find_all_options`: with a filled square right
before the anchor, rebuild that fixed prefix and extend it forward (skipping
the anchor when the prefix is not in the trie); otherwise count the empty
non-anchor squares backwards and run the backward extension. -/
def run_anchor (st : SolveState) (anchors : List Pos) (anchor_pos : Pos) :
    SolveState :=
  if st.board.is_filled (before st.direction anchor_pos) then
    let partial_word :=
      scan_prepend st.board (before st.direction) st.board.size anchor_pos
    match st.dictionary.lookup partial_word with
    | some pw_node =>
      extend_after pw_node.size st partial_word pw_node anchor_pos false
    | none => st
  else
    let limit :=
      count_limit st.board st.direction anchors st.board.size anchor_pos
    before_part st [] st.dictionary.root anchor_pos limit

/-- One direction pass of `find_all_options`: set the direction, compute the
anchors and the cross-check table, and search from every anchor. -/
def run_pass (st : SolveState) (d : Direction) : SolveState :=
  let st1 := { st with direction := d }
  let anchors := find_anchors st1.board st1.direction
  let st2 := { st1 with
    cross_check_results := cross_check st1.dictionary st1.board st1.direction }
  anchors.foldl (fun s a => run_anchor s anchors a) st2

/-- `SolveState.find_all_options`: the across pass followed by the down
pass. -/
def find_all_options (st : SolveState) : SolveState :=
  run_pass (run_pass st Direction.across) Direction.down

end Scrab

/-! Basic facts about the direction transforms and the board model. -/

namespace Scrab

theorem after_before (d : Direction) (p : Pos) : after d (before d p) = p := by
  cases d <;> simp [after, before]

theorem before_after (d : Direction) (p : Pos) : before d (after d p) = p := by
  cases d <;> simp [after, before]

theorem afterN_beforeN (d : Direction) (p : Pos) :
    ∀ i n : Nat, i ≤ n →
      (after d)^[i] ((before d)^[n] p) = (before d)^[n - i] p := by
  intro i
  induction i with
  | zero => intro n _; rfl
  | succ i ih =>
    intro n hn
    obtain ⟨m, rfl⟩ : ∃ m, n = m + 1 := ⟨n - 1, by omega⟩
    rw [Function.iterate_succ_apply' (before d) m p,
      Function.iterate_succ_apply (after d) i, after_before,
      ih m (by omega)]
    congr 1
    omega

theorem filled_in_bounds {b : Board} {p : Pos} (h : b.is_filled p = true) :
    b.in_bounds p = true :=
  (Bool.and_eq_true _ _ |>.mp h).1

theorem empty_in_bounds {b : Board} {p : Pos} (h : b.is_empty p = true) :
    b.in_bounds p = true :=
  (Bool.and_eq_true _ _ |>.mp h).1

theorem filled_not_empty {b : Board} {p : Pos} (h : b.is_filled p = true) :
    b.is_empty p = false := by
  rcases Bool.and_eq_true _ _ |>.mp h with ⟨h1, h2⟩
  simp [Board.is_empty, h1, h2]

theorem empty_not_filled {b : Board} {p : Pos} (h : b.is_empty p = true) :
    b.is_filled p = false := by
  rcases Bool.and_eq_true _ _ |>.mp h with ⟨h1, h2⟩
  simp only [Bool.not_eq_true'] at h2
  simp [Board.is_filled, h1, h2]

theorem empty_of_in_bounds_not_filled {b : Board} {p : Pos}
    (h1 : b.in_bounds p = true) (h2 : b.is_filled p = false) :
    b.is_empty p = true := by
  rw [Board.is_filled, h1, Bool.true_and] at h2
  simp [Board.is_empty, h1, h2]

theorem mem_all_positions {b : Board} {p : Pos} :
    p ∈ b.all_positions ↔ b.in_bounds p = true := by
  obtain ⟨x, y⟩ := p
  simp only [Board.all_positions, List.mem_flatMap, List.mem_map,
    List.mem_range, Board.in_bounds, decide_eq_true_eq, Prod.mk.injEq,
    Int.ofNat_eq_coe]
  constructor
  · rintro ⟨r, hr, c, hc, h1, h2⟩
    refine ⟨?_, ?_, ?_, ?_⟩ <;> omega
  · rintro ⟨h1, h2, h3, h4⟩
    exact ⟨x.toNat, by omega, y.toNat, by omega, by omega, by omega⟩

theorem lookup_mem {α β : Type} [BEq α] [LawfulBEq α] {l : List (α × β)}
    {k : α} {v : β} (h : l.lookup k = some v) : (k, v) ∈ l := by
  induction l with
  | nil => simp [List.lookup] at h
  | cons hd tl ih =>
    obtain ⟨a, b⟩ := hd
    rw [List.lookup_cons] at h
    by_cases hk : k == a
    · rw [hk] at h
      obtain rfl : b = v := by simpa using h
      obtain rfl : k = a := by simpa using hk
      exact List.mem_cons_self _ _
    · rw [Bool.not_eq_true] at hk
      rw [hk] at h
      exact List.mem_cons_of_mem _ (ih h)

theorem mem_lookup_of_nodup {α β : Type} [BEq α] [LawfulBEq α]
    {l : List (α × β)} {k : α} {v : β}
    (hn : (l.map Prod.fst).Nodup) (h : (k, v) ∈ l) : l.lookup k = some v := by
  induction l with
  | nil => simp at h
  | cons hd tl ih =>
    obtain ⟨a, b⟩ := hd
    simp only [List.map_cons, List.nodup_cons] at hn
    rcases List.mem_cons.mp h with heq | hmem
    · obtain ⟨rfl, rfl⟩ := Prod.mk.injEq .. |>.mp heq
      simp [List.lookup_cons]
    · have hka : (k == a) = false := by
        refine beq_eq_false_iff_ne.mpr ?_
        rintro rfl
        exact hn.1 (by simpa using ⟨v, hmem⟩)
      rw [List.lookup_cons, hka]
      exact ih hn.2 hmem

theorem lookup_map_self {α β : Type} [BEq α] [LawfulBEq α] {l : List α}
    (f : α → β) {p : α} (h : p ∈ l) :
    (l.map (fun x => (x, f x))).lookup p = some (f p) := by
  induction l with
  | nil => simp at h
  | cons a tl ih =>
    rw [List.map_cons, List.lookup_cons]
    by_cases hp : p == a
    · obtain rfl : p = a := by simpa using hp
      simp
    · rw [Bool.not_eq_true] at hp
      rw [hp]
      refine ih ?_
      rcases List.mem_cons.mp h with rfl | hm
      · simp at hp
      · exact hm

theorem lookup_map_none {α β : Type} [BEq α] [LawfulBEq α] {l : List α}
    (f : α → β) {p : α} (h : p ∉ l) :
    (l.map (fun x => (x, f x))).lookup p = none := by
  induction l with
  | nil => simp [List.lookup]
  | cons a tl ih =>
    rw [List.map_cons, List.lookup_cons]
    have hp : (p == a) = false :=
      beq_eq_false_iff_ne.mpr (fun hq => h (hq ▸ List.mem_cons_self _ _))
    rw [hp]
    exact ih (fun hm => h (List.mem_cons_of_mem _ hm))

end Scrab

/-! Facts about the scans, the cross-check table, the anchors and the
backward counting loop. -/

namespace Scrab

theorem scan_prepend_nil {b : Board} {step : Pos → Pos} {p : Pos}
    (hf : b.is_filled (step p) = false) :
    ∀ fuel, scan_prepend b step fuel p = [] := by
  intro fuel
  cases fuel with
  | zero => rfl
  | succ fuel => simp [scan_prepend, hf]

theorem scan_append_nil {b : Board} {step : Pos → Pos} {p : Pos}
    (hf : b.is_filled (step p) = false) :
    ∀ fuel, scan_append b step fuel p = [] := by
  intro fuel
  cases fuel with
  | zero => rfl
  | succ fuel => simp [scan_append, hf]

theorem scan_prepend_filled {b : Board} {step : Pos → Pos} :
    ∀ (fuel : Nat) (p : Pos) (j : Nat), 1 ≤ j →
      j ≤ (scan_prepend b step fuel p).length →
      b.is_filled (step^[j] p) = true := by
  intro fuel
  induction fuel with
  | zero =>
    intro p j h1 h2
    simp [scan_prepend] at h2
    omega
  | succ fuel ih =>
    intro p j h1 h2
    rw [scan_prepend] at h2
    by_cases hf : b.is_filled (step p) = true
    · rw [if_pos hf, List.length_append, List.length_singleton] at h2
      match j, h1 with
      | 1, _ => simpa using hf
      | j + 2, _ =>
        rw [Function.iterate_succ_apply]
        exact ih (step p) (j + 1) (by omega) (by omega)
    · rw [Bool.not_eq_true] at hf
      rw [if_neg (by simp [hf])] at h2
      simp at h2
      omega

theorem legal_letters_alphabet {dict : Trie} {b : Board} {d : Direction}
    {p : Pos} (h1 : b.is_filled (before_cross d p) = false)
    (h2 : b.is_filled (after_cross d p) = false) :
    legal_letters dict b d p = alphabet := by
  unfold legal_letters
  rw [scan_prepend_nil h1, scan_append_nil h2]
  simp

theorem cross_check_lookup_filled {dict : Trie} {b : Board} {d : Direction}
    {p : Pos} (h : b.is_filled p = true) :
    (cross_check dict b d).lookup p = none := by
  unfold cross_check
  apply lookup_map_none
  intro hmem
  rw [List.mem_filter] at hmem
  simp [h] at hmem

theorem cross_check_lookup_empty {dict : Trie} {b : Board} {d : Direction}
    {p : Pos} (h : b.is_empty p = true) :
    (cross_check dict b d).lookup p = some (legal_letters dict b d p) := by
  unfold cross_check
  apply lookup_map_self
  rw [List.mem_filter]
  exact ⟨mem_all_positions.mpr (empty_in_bounds h), by simp [empty_not_filled h]⟩

theorem cc_get_cross_check {dict : Trie} {b : Board} {d : Direction}
    {p : Pos} (h : b.is_empty p = true) :
    cc_get (cross_check dict b d) p = legal_letters dict b d p := by
  simp [cc_get, cross_check_lookup_empty h]

theorem mem_find_anchors {b : Board} {d : Direction} {p : Pos} :
    p ∈ find_anchors b d ↔
      b.is_empty p = true ∧
        (b.is_filled (before d p) = true ∨ b.is_filled (after d p) = true ∨
         b.is_filled (before_cross d p) = true ∨
         b.is_filled (after_cross d p) = true) := by
  unfold find_anchors
  rw [List.mem_filter]
  constructor
  · rintro ⟨hmem, hp⟩
    simp only [Bool.and_eq_true, Bool.or_eq_true] at hp
    tauto
  · rintro ⟨he, hor⟩
    refine ⟨mem_all_positions.mpr (empty_in_bounds he), ?_⟩
    simp only [Bool.and_eq_true, Bool.or_eq_true, he, true_and]
    tauto

theorem neighbors_not_filled_of_not_anchor {b : Board} {d : Direction}
    {p : Pos} (he : b.is_empty p = true) (hn : p ∉ find_anchors b d) :
    b.is_filled (before d p) = false ∧ b.is_filled (after d p) = false ∧
      b.is_filled (before_cross d p) = false ∧
      b.is_filled (after_cross d p) = false := by
  have hor : ¬ (b.is_filled (before d p) = true ∨
      b.is_filled (after d p) = true ∨
      b.is_filled (before_cross d p) = true ∨
      b.is_filled (after_cross d p) = true) :=
    fun h => hn (mem_find_anchors.mpr ⟨he, h⟩)
  push_neg at hor
  obtain ⟨n1, n2, n3, n4⟩ := hor
  exact ⟨Bool.not_eq_true _ |>.mp n1, Bool.not_eq_true _ |>.mp n2,
    Bool.not_eq_true _ |>.mp n3, Bool.not_eq_true _ |>.mp n4⟩

theorem count_limit_spec {b : Board} {d : Direction} {anchors : List Pos} :
    ∀ (fuel : Nat) (p : Pos) (j : Nat), 1 ≤ j →
      j ≤ count_limit b d anchors fuel p →
      b.is_empty ((before d)^[j] p) = true ∧
        (before d)^[j] p ∉ anchors := by
  intro fuel
  induction fuel with
  | zero =>
    intro p j h1 h2
    simp [count_limit] at h2
    omega
  | succ fuel ih =>
    intro p j h1 h2
    rw [count_limit] at h2
    split at h2
    · next hcond =>
      match j, h1 with
      | 1, _ => simpa using hcond
      | j + 2, _ =>
        rw [Function.iterate_succ_apply]
        exact ih (before d p) (j + 1) (by omega) (by omega)
    · omega

end Scrab

/-! Concrete instances used by the witnesses and counterexamples: the
dictionary {"at"} (as a trie), a 3x3 board carrying the single tile 'a' at
(1,1), and a scoring function that reveals its rack argument's length. -/

namespace Scrab

def exDict : Trie := .mk false [('a', .mk false [('t', .mk true [])])]

def exScore : List Char → Pos → Direction → List Char → Int :=
  fun _ _ _ rack => (rack.length : Int)

def exBoard : Board :=
  { size := 3, tiles := [((1, 1), 'a')], calculate_score := exScore }

def emptyBoard : Board :=
  { size := 3, tiles := [], calculate_score := exScore }

theorem legal_letters_spec (dict : Trie) (b : Board) (d : Direction)
    (p : Pos) :
    (scan_prepend b (before_cross d) b.size p = [] ∧
        scan_append b (after_cross d) b.size p = [] →
      legal_letters dict b d p = alphabet) ∧
    (¬ (scan_prepend b (before_cross d) b.size p = [] ∧
        scan_append b (after_cross d) b.size p = []) →
      ∀ c : Char, c ∈ legal_letters dict b d p ↔ c ∈ alphabet ∧
        dict.is_word_str (scan_prepend b (before_cross d) b.size p ++
          c :: scan_append b (after_cross d) b.size p) = true) := by
  unfold legal_letters
  constructor
  · rintro ⟨h1, h2⟩
    rw [h1, h2]
    simp
  · intro h c
    have hcond : ¬ (((scan_prepend b (before_cross d) b.size p).length == 0 &&
        ((scan_append b (after_cross d) b.size p).length == 0)) = true) := by
      simp only [Bool.and_eq_true, beq_iff_eq, List.length_eq_zero]
      exact h
    rw [if_neg hcond]
    simp [List.mem_filter]

/-- C2: the cross-check table has no entry at a filled position; at an empty
position its entry is the full alphabet when both perpendicular runs are
empty, and otherwise exactly the alphabet letters forming a dictionary word
with the two runs. -/
theorem C2_cross_check_table (dict : Trie) (b : Board) (d : Direction)
    (p : Pos) :
    (b.is_filled p = true → (cross_check dict b d).lookup p = none) ∧
    (b.is_empty p = true →
      ∃ L, (cross_check dict b d).lookup p = some L ∧
        (scan_prepend b (before_cross d) b.size p = [] ∧
            scan_append b (after_cross d) b.size p = [] → L = alphabet) ∧
        (¬ (scan_prepend b (before_cross d) b.size p = [] ∧
            scan_append b (after_cross d) b.size p = []) →
          ∀ c : Char, c ∈ L ↔ c ∈ alphabet ∧
            dict.is_word_str (scan_prepend b (before_cross d) b.size p ++
              c :: scan_append b (after_cross d) b.size p) = true)) := by
  refine ⟨fun h => cross_check_lookup_filled h, fun h => ?_⟩
  exact ⟨legal_letters dict b d p, cross_check_lookup_empty h,
    (legal_letters_spec dict b d p).1, (legal_letters_spec dict b d p).2⟩

/-- C4: a position is an anchor exactly when it is empty and one of its four
direction-relative neighbours is filled; no filled position is an anchor. -/
theorem C4_anchor_characterization (b : Board) (d : Direction) (p : Pos) :
    (p ∈ find_anchors b d ↔
      b.is_empty p = true ∧
        (b.is_filled (before d p) = true ∨ b.is_filled (after d p) = true ∨
         b.is_filled (before_cross d p) = true ∨
         b.is_filled (after_cross d p) = true)) ∧
    (b.is_filled p = true → p ∉ find_anchors b d) := by
  refine ⟨mem_find_anchors, fun hf hmem => ?_⟩
  have := (mem_find_anchors.mp hmem).1
  rw [filled_not_empty hf] at this
  exact Bool.false_ne_true this

/-- C9: an empty position that is not an anchor for the pass direction has
the full alphabet as its cross-check set (its perpendicular neighbours are
all empty, so no constraint applies). -/
theorem C9_non_anchor_full_alphabet (dict : Trie) (b : Board) (d : Direction)
    (p : Pos) (he : b.is_empty p = true) (hn : p ∉ find_anchors b d) :
    cc_get (cross_check dict b d) p = alphabet := by
  obtain ⟨-, -, h3, h4⟩ := neighbors_not_filled_of_not_anchor he hn
  rw [cc_get_cross_check he, legal_letters_alphabet h3 h4]

theorem C9_witness :
    exBoard.is_empty (0, 0) = true ∧ (0, 0) ∉ find_anchors exBoard
      Direction.across ∧
      cc_get (cross_check exDict exBoard Direction.across) (0, 0) = alphabet :=
  ⟨by decide, by decide,
    C9_non_anchor_full_alphabet exDict exBoard Direction.across (0, 0)
      (by decide) (by decide)⟩

end Scrab

namespace Scrab

theorem find_anchors_of_unfilled {b : Board} {d : Direction}
    (h : ∀ p : Pos, b.is_filled p = false) : find_anchors b d = [] := by
  unfold find_anchors
  rw [List.filter_eq_nil]
  intro a _
  simp [h]

theorem run_pass_of_unfilled {st : SolveState} {d : Direction}
    (h : ∀ p : Pos, st.board.is_filled p = false) :
    run_pass st d =
      { st with
        direction := d,
        cross_check_results := cross_check st.dictionary st.board d } := by
  unfold run_pass
  dsimp only
  rw [find_anchors_of_unfilled h, List.foldl_nil]

/-- C6: on a board with no filled position there are no anchors in either
direction, and the generator records no moves at all. -/
theorem C6_empty_board (dict : Trie) (b : Board) (rack : List Char)
    (h : ∀ p : Pos, b.is_filled p = false) :
    (∀ d : Direction, find_anchors b d = []) ∧
    (find_all_options (SolveState.init dict b rack)).found_moves = [] := by
  refine ⟨fun d => find_anchors_of_unfilled h, ?_⟩
  unfold find_all_options
  have h1 : run_pass (SolveState.init dict b rack) Direction.across =
      { SolveState.init dict b rack with
        direction := Direction.across,
        cross_check_results := cross_check dict b Direction.across } :=
    run_pass_of_unfilled h
  rw [h1]
  have h2 : run_pass
      { SolveState.init dict b rack with
        direction := Direction.across,
        cross_check_results := cross_check dict b Direction.across }
      Direction.down =
      { SolveState.init dict b rack with
        direction := Direction.down,
        cross_check_results := cross_check dict b Direction.down } :=
    run_pass_of_unfilled h
  rw [h2]
  rfl

theorem C6_witness :
    (∀ p : Pos, emptyBoard.is_filled p = false) ∧
    ((∀ d : Direction, find_anchors emptyBoard d = []) ∧
      (find_all_options
        (SolveState.init exDict emptyBoard ['c', 'a', 't'])).found_moves =
        []) :=
  ⟨fun p => by simp [Board.is_filled, emptyBoard],
    C6_empty_board exDict emptyBoard ['c', 'a', 't']
      (fun p => by simp [Board.is_filled, emptyBoard])⟩

end Scrab

/-! State-preservation machinery: the context fields that the search leaves
untouched, append-only move accumulation, and rack restoration. -/

namespace Scrab

/-- The move that `legal_move` appends. -/
def recorded_move (st : SolveState) (word : List Char) (last_pos : Pos) :
    Move :=
  let play_pos := (before st.direction)^[word.length] last_pos
  let start_pos := after st.direction play_pos
  { word := word, start := start_pos, direction := st.direction,
    used_rack := st.rack.foldl (fun ur letter => ur.erase letter)
      st.reference_rack,
    score := st.board.calculate_score word start_pos st.direction st.rack }

theorem legal_move_eq (st : SolveState) (word : List Char) (last_pos : Pos) :
    legal_move st word last_pos =
      { st with found_moves :=
          st.found_moves ++ [recorded_move st word last_pos] } := rfl

def SameCtx (s s' : SolveState) : Prop :=
  s'.dictionary = s.dictionary ∧ s'.board = s.board ∧
    s'.reference_rack = s.reference_rack ∧
    s'.cross_check_results = s.cross_check_results ∧
    s'.direction = s.direction

theorem sameCtx_refl (s : SolveState) : SameCtx s s := ⟨rfl, rfl, rfl, rfl, rfl⟩

theorem sameCtx_trans {s1 s2 s3 : SolveState} (h1 : SameCtx s1 s2)
    (h2 : SameCtx s2 s3) : SameCtx s1 s3 := by
  obtain ⟨a1, b1, c1, d1, e1⟩ := h1
  obtain ⟨a2, b2, c2, d2, e2⟩ := h2
  exact ⟨a2.trans a1, b2.trans b1, c2.trans c1, d2.trans d1, e2.trans e1⟩

def MovesExtend (s s' : SolveState) (P : Move → Prop) : Prop :=
  ∃ ms, s'.found_moves = s.found_moves ++ ms ∧ ∀ m ∈ ms, P m

/-- What a stretch of the search preserves: the context fields, the rack up
to permutation, and the move list up to appending moves satisfying `P`. -/
def Pres (P : Move → Prop) (s s' : SolveState) : Prop :=
  SameCtx s s' ∧ s'.rack.Perm s.rack ∧ MovesExtend s s' P

theorem pres_refl (P : Move → Prop) (s : SolveState) : Pres P s s :=
  ⟨sameCtx_refl s, List.Perm.refl _, [], by simp⟩

theorem pres_trans {P : Move → Prop} {s1 s2 s3 : SolveState}
    (h1 : Pres P s1 s2) (h2 : Pres P s2 s3) : Pres P s1 s3 := by
  obtain ⟨c1, p1, ms1, e1, q1⟩ := h1
  obtain ⟨c2, p2, ms2, e2, q2⟩ := h2
  refine ⟨sameCtx_trans c1 c2, p2.trans p1, ms1 ++ ms2,
    by rw [e2, e1, List.append_assoc], ?_⟩
  intro m hm
  rcases List.mem_append.mp hm with h | h
  · exact q1 m h
  · exact q2 m h

theorem pres_mono {P Q : Move → Prop} {s s' : SolveState}
    (h : Pres P s s') (hpq : ∀ m, P m → Q m) : Pres Q s s' := by
  obtain ⟨c, p, ms, e, q⟩ := h
  exact ⟨c, p, ms, e, fun m hm => hpq m (q m hm)⟩

theorem pres_legal_move {P : Move → Prop} {st : SolveState}
    {word : List Char} {last_pos : Pos}
    (hP : P (recorded_move st word last_pos)) :
    Pres P st (legal_move st word last_pos) := by
  rw [legal_move_eq]
  exact ⟨⟨rfl, rfl, rfl, rfl, rfl⟩, List.Perm.refl _,
    [recorded_move st word last_pos], rfl, by simpa using hP⟩

/-- Consuming a rack letter, running a preserved stretch, and restoring the
letter preserves the state. -/
theorem pres_restore {P : Move → Prop} {st stM : SolveState} {c : Char}
    (hc : c ∈ st.rack)
    (h : Pres P { st with rack := st.rack.erase c } stM) :
    Pres P st { stM with rack := stM.rack ++ [c] } := by
  obtain ⟨hctx, hperm, ms, e, q⟩ := h
  refine ⟨?_, ?_, ms, e, q⟩
  · exact sameCtx_trans ⟨rfl, rfl, rfl, rfl, rfl⟩
      (sameCtx_trans hctx ⟨rfl, rfl, rfl, rfl, rfl⟩)
  · exact (hperm.append_right [c]).trans
      ((List.perm_append_singleton c _).trans (List.perm_cons_erase hc).symm)

end Scrab

/-! Master invariant A: every move appended by the search carries the pass
direction, spans the anchor it was generated from, and its `used_rack` and
score are those of the working rack at recording time. -/

namespace Scrab

/-- The anchor `a` lies under one of the `w.length` letters ending just
before `q`. -/
def SpanA (d : Direction) (w : List Char) (q : Pos) (a : Pos) : Prop :=
  ∃ j, 1 ≤ j ∧ j ≤ w.length ∧ (before d)^[j] q = a

/-- Per-move conclusion of master invariant A, relative to the state at the
start of the stretch. -/
def PA (st0 : SolveState) (a : Pos) (m : Move) : Prop :=
  m.direction = st0.direction ∧
  (∃ i, i < m.word.length ∧ (after st0.direction)^[i] m.start = a) ∧
  (∃ rk : List Char, (↑rk : Multiset Char) ≤ (↑st0.rack : Multiset Char) ∧
    (↑m.used_rack : Multiset Char) =
      (↑st0.reference_rack : Multiset Char) - (↑rk : Multiset Char) ∧
    m.score = st0.board.calculate_score m.word m.start m.direction rk)

theorem PA_mono {st st' : SolveState} {a : Pos} {m : Move}
    (hctx : SameCtx st st')
    (hrk : (↑st'.rack : Multiset Char) ≤ (↑st.rack : Multiset Char))
    (h : PA st' a m) : PA st a m := by
  obtain ⟨hdict, hboard, href, hcc, hdir⟩ := hctx
  obtain ⟨h1, h2, rk, hle, heq, hsc⟩ := h
  rw [hdir] at h1 h2
  rw [href] at heq
  rw [hboard] at hsc
  exact ⟨h1, h2, rk, le_trans hle hrk, heq, hsc⟩

theorem spanA_extend {d : Direction} {w : List Char} {q a : Pos} (c : Char)
    (h : q = a ∨ SpanA d w q a) : SpanA d (w ++ [c]) (after d q) a := by
  rcases h with rfl | ⟨j, hj1, hj2, hj3⟩
  · exact ⟨1, le_refl 1, by simp, by simp [before_after]⟩
  · refine ⟨j + 1, by omega, by simp; omega, ?_⟩
    rw [Function.iterate_succ_apply, before_after]
    exact hj3

theorem recorded_move_start (st : SolveState) (w : List Char) (q : Pos) :
    (recorded_move st w (before st.direction q)).start =
      (before st.direction)^[w.length] q := by
  unfold recorded_move
  dsimp only
  have h : (before st.direction)^[w.length] (before st.direction q) =
      before st.direction ((before st.direction)^[w.length] q) :=
    (Function.iterate_succ_apply (before st.direction) w.length q).symm.trans
      (Function.iterate_succ_apply' (before st.direction) w.length q)
  rw [h, after_before]

theorem recorded_used_rack (st : SolveState) (w : List Char) (lp : Pos) :
    ((recorded_move st w lp).used_rack : Multiset Char) =
      (↑st.reference_rack : Multiset Char) - (↑st.rack : Multiset Char) := by
  have h : (recorded_move st w lp).used_rack =
      st.reference_rack.diff st.rack := by
    show st.rack.foldl (fun ur letter => ur.erase letter) st.reference_rack =
      st.reference_rack.diff st.rack
    rw [List.diff_eq_foldl]
  rw [h]
  exact_mod_cast rfl

theorem PA_recorded {st : SolveState} {w : List Char} {q a : Pos}
    (hs : SpanA st.direction w q a) :
    PA st a (recorded_move st w (before st.direction q)) := by
  obtain ⟨j, hj1, hj2, hj3⟩ := hs
  refine ⟨rfl, ⟨w.length - j, ?_, ?_⟩, st.rack, le_refl _,
    recorded_used_rack st w _, rfl⟩
  · show w.length - j < (recorded_move st w (before st.direction q)).word.length
    show w.length - j < w.length
    omega
  · show (after st.direction)^[w.length - j]
        (recorded_move st w (before st.direction q)).start = a
    rw [recorded_move_start]
    rw [afterN_beforeN st.direction q (w.length - j) w.length (by omega)]
    have : w.length - (w.length - j) = j := by omega
    rw [this]
    exact hj3

theorem extend_children_A (a : Pos)
    (ea_f : SolveState → List Char → Trie → Pos → Bool → SolveState)
    (Hea : ∀ s w t p af, (af = false → p = a) →
      (af = true → SpanA s.direction w p a) →
      Pres (PA s a) s (ea_f s w t p af)) :
    ∀ (cs : List (Char × Trie)) (st : SolveState) (w : List Char) (q : Pos),
      (q = a ∨ SpanA st.direction w q a) →
      Pres (PA st a) st (extend_children ea_f st w cs q) := by
  intro cs
  induction cs with
  | nil =>
    intro st w q _
    rw [extend_children]
    exact pres_refl _ _
  | cons hd rest ih =>
    intro st w q hq
    obtain ⟨c, child⟩ := hd
    rw [extend_children]
    split
    · next hguard =>
      dsimp only
      have hsp : SpanA st.direction (w ++ [c]) (after st.direction q) a :=
        spanA_extend c hq
      have hea := Hea { st with rack := st.rack.erase c } (w ++ [c]) child
        (after st.direction q) true (fun h => nomatch h) (fun _ => hsp)
      have hea2 : Pres (PA st a) { st with rack := st.rack.erase c }
          (ea_f { st with rack := st.rack.erase c } (w ++ [c]) child
            (after st.direction q) true) :=
        pres_mono hea (fun m hm =>
          @PA_mono st { st with rack := st.rack.erase c } a m
            ⟨rfl, rfl, rfl, rfl, rfl⟩
            (Multiset.coe_le.mpr (List.erase_subperm c st.rack)) hm)
      have hres := pres_restore hguard.1 hea2
      refine pres_trans hres (pres_mono (ih _ w q ?_) ?_)
      · rcases hq with h | h
        · exact Or.inl h
        · exact Or.inr (by rw [hres.1.2.2.2.2]; exact h)
      · intro m hm
        exact PA_mono hres.1
          (le_of_eq (Multiset.coe_eq_coe.mpr hres.2.1)) hm
    · next =>
      exact ih st w q hq

theorem extend_after_step_A (a : Pos)
    (ea_f : SolveState → List Char → Trie → Pos → Bool → SolveState)
    (Hea : ∀ s w t p af, (af = false → p = a) →
      (af = true → SpanA s.direction w p a) →
      Pres (PA s a) s (ea_f s w t p af))
    (st st1 : SolveState) (w : List Char) (node : Trie) (q : Pos)
    (hpre : Pres (PA st a) st st1)
    (Hq : q = a ∨ SpanA st.direction w q a) :
    Pres (PA st a) st (extend_after_step ea_f st1 w node q) := by
  obtain ⟨hctx, hperm, hmov⟩ := hpre
  obtain ⟨hdict, hboard, href, hcc, hdir⟩ := hctx
  have hpre' : Pres (PA st a) st st1 := ⟨⟨hdict, hboard, href, hcc, hdir⟩, hperm, hmov⟩
  have hrackle : (↑st1.rack : Multiset Char) ≤ (↑st.rack : Multiset Char) :=
    le_of_eq (Multiset.coe_eq_coe.mpr hperm)
  have hq1 : q = a ∨ SpanA st1.direction w q a := by
    rcases Hq with h | h
    · exact Or.inl h
    · exact Or.inr (by rw [hdir]; exact h)
  unfold extend_after_step
  by_cases hib : st1.board.in_bounds q = true
  · rw [if_pos hib]
    by_cases hie : st1.board.is_empty q = true
    · rw [if_pos hie]
      refine pres_trans hpre'
        (pres_mono (extend_children_A a ea_f Hea node.children st1 w q hq1)
          ?_)
      intro m hm
      exact PA_mono ⟨hdict, hboard, href, hcc, hdir⟩ hrackle hm
    · rw [if_neg hie]
      dsimp only
      split
      · next child hlk =>
        have hsp : SpanA st1.direction (w ++ [st1.board.get_tile q])
            (after st1.direction q) a := spanA_extend _ hq1
        have hea := Hea st1 (w ++ [st1.board.get_tile q]) child
          (after st1.direction q) true (fun h => nomatch h) (fun _ => hsp)
        refine pres_trans hpre' (pres_mono hea ?_)
        intro m hm
        exact PA_mono ⟨hdict, hboard, href, hcc, hdir⟩ hrackle hm
      · next => exact hpre'
  · rw [if_neg hib]
    exact hpre'

theorem extend_after_A (a : Pos) :
    ∀ (fuel : Nat) (st : SolveState) (w : List Char) (node : Trie) (q : Pos)
      (af : Bool),
      (af = false → q = a) → (af = true → SpanA st.direction w q a) →
      Pres (PA st a) st (extend_after fuel st w node q af) := by
  intro fuel
  induction fuel with
  | zero =>
    intro st w node q af h1 h2
    rw [extend_after]
    exact pres_refl _ _
  | succ fuel ih =>
    intro st w node q af h1 h2
    rw [extend_after]
    by_cases hcond :
        ((!st.board.is_filled q) && node.is_word && af) = true
    · rw [if_pos hcond]
      have haf : af = true := (Bool.and_eq_true _ _ |>.mp hcond).2
      have hsp : SpanA st.direction w q a := h2 haf
      exact extend_after_step_A a _
        (fun s w2 t p af2 g1 g2 => ih s w2 t p af2 g1 g2) st _ w node q
        (pres_legal_move (PA_recorded hsp)) (Or.inr hsp)
    · rw [if_neg hcond]
      refine extend_after_step_A a _
        (fun s w2 t p af2 g1 g2 => ih s w2 t p af2 g1 g2) st st w node q
        (pres_refl _ _) ?_
      cases af with
      | false => exact Or.inl (h1 rfl)
      | true => exact Or.inr (h2 rfl)

end Scrab

namespace Scrab

theorem before_children_A (a : Pos)
    (bp_f : SolveState → List Char → Trie → SolveState)
    (Hbp : ∀ s w t, Pres (PA s a) s (bp_f s w t)) :
    ∀ (cs : List (Char × Trie)) (st : SolveState) (w : List Char),
      Pres (PA st a) st (before_children bp_f st w cs) := by
  intro cs
  induction cs with
  | nil =>
    intro st w
    rw [before_children]
    exact pres_refl _ _
  | cons hd rest ih =>
    intro st w
    obtain ⟨c, child⟩ := hd
    rw [before_children]
    split
    · next hmem =>
      dsimp only
      have hbp := Hbp { st with rack := st.rack.erase c } (w ++ [c]) child
      have hbp2 : Pres (PA st a) { st with rack := st.rack.erase c }
          (bp_f { st with rack := st.rack.erase c } (w ++ [c]) child) :=
        pres_mono hbp (fun m hm =>
          @PA_mono st { st with rack := st.rack.erase c } a m
            ⟨rfl, rfl, rfl, rfl, rfl⟩
            (Multiset.coe_le.mpr (List.erase_subperm c st.rack)) hm)
      have hres := pres_restore hmem hbp2
      refine pres_trans hres (pres_mono (ih _ w) ?_)
      intro m hm
      exact PA_mono hres.1
        (le_of_eq (Multiset.coe_eq_coe.mpr hres.2.1)) hm
    · next =>
      exact ih st w

theorem before_part_A (a : Pos) :
    ∀ (limit : Nat) (st : SolveState) (w : List Char) (node : Trie),
      Pres (PA st a) st (before_part st w node a limit) := by
  intro limit
  induction limit with
  | zero =>
    intro st w node
    rw [before_part]
    exact extend_after_A a node.size st w node a false (fun _ => rfl)
      (fun h => nomatch h)
  | succ l ih =>
    intro st w node
    rw [before_part]
    have h1 : Pres (PA st a) st
        (extend_after node.size st w node a false) :=
      extend_after_A a node.size st w node a false (fun _ => rfl)
        (fun h => nomatch h)
    refine pres_trans h1
      (pres_mono (before_children_A a _ (fun s w2 t => ih s w2 t)
        node.children _ w) ?_)
    intro m hm
    exact PA_mono h1.1 (le_of_eq (Multiset.coe_eq_coe.mpr h1.2.1)) hm

theorem run_anchor_A (st : SolveState) (anchors : List Pos) (a : Pos) :
    Pres (PA st a) st (run_anchor st anchors a) := by
  unfold run_anchor
  by_cases hf : st.board.is_filled (before st.direction a) = true
  · rw [if_pos hf]
    dsimp only
    split
    · next pw_node hlk =>
      exact extend_after_A a pw_node.size st _ pw_node a false
        (fun _ => rfl) (fun h => nomatch h)
    · next => exact pres_refl _ _
  · rw [if_neg hf]
    exact before_part_A a _ st [] st.dictionary.root

end Scrab

namespace Scrab

/-- Per-move conclusion of one direction pass, relative to the state `st`
entering the pass. -/
def PassA (st : SolveState) (d : Direction) (m : Move) : Prop :=
  m.direction = d ∧
  (∃ i, i < m.word.length ∧
    (after d)^[i] m.start ∈ find_anchors st.board d) ∧
  (∃ rk : List Char, (↑rk : Multiset Char) ≤ (↑st.rack : Multiset Char) ∧
    (↑m.used_rack : Multiset Char) =
      (↑st.reference_rack : Multiset Char) - (↑rk : Multiset Char) ∧
    m.score = st.board.calculate_score m.word m.start m.direction rk)

theorem foldl_run_anchor_A (st2 : SolveState) (anchors : List Pos)
    (hanch : anchors = find_anchors st2.board st2.direction) :
    ∀ (sub : List Pos), (∀ x ∈ sub, x ∈ anchors) →
      ∀ (s : SolveState), Pres (PassA st2 st2.direction) st2 s →
        Pres (PassA st2 st2.direction) st2
          (sub.foldl (fun s2 a => run_anchor s2 anchors a) s) := by
  intro sub
  induction sub with
  | nil =>
    intro _ s hs
    rw [List.foldl_nil]
    exact hs
  | cons x rest ih =>
    intro hsub s hs
    rw [List.foldl_cons]
    apply ih (fun y hy => hsub y (List.mem_cons_of_mem _ hy))
    refine pres_trans hs (pres_mono (run_anchor_A s anchors x) ?_)
    intro m hm
    obtain ⟨hctx, hperm, -⟩ := hs
    obtain ⟨hdict, hboard, href, hcc, hdir⟩ := hctx
    obtain ⟨h1, ⟨i, hi, hia⟩, rk, hle, heq, hsc⟩ := hm
    rw [hdir] at h1 hia
    rw [href] at heq
    rw [hboard] at hsc
    refine ⟨h1, ⟨i, hi, ?_⟩, rk,
      le_trans hle (le_of_eq (Multiset.coe_eq_coe.mpr hperm)), heq, hsc⟩
    rw [hia, ← hanch]
    exact hsub x (List.mem_cons_self _ _)

theorem run_pass_A (st : SolveState) (d : Direction) :
    (run_pass st d).dictionary = st.dictionary ∧
    (run_pass st d).board = st.board ∧
    (run_pass st d).reference_rack = st.reference_rack ∧
    (run_pass st d).rack.Perm st.rack ∧
    (run_pass st d).direction = d ∧
    (run_pass st d).cross_check_results =
      cross_check st.dictionary st.board d ∧
    MovesExtend st (run_pass st d) (PassA st d) := by
  unfold run_pass
  dsimp only
  have h := foldl_run_anchor_A
    { st with
      direction := d,
      cross_check_results := cross_check st.dictionary st.board d }
    (find_anchors st.board d) rfl (find_anchors st.board d)
    (fun x hx => hx) _ (pres_refl _ _)
  obtain ⟨⟨hdict, hboard, href, hcc, hdir⟩, hperm, ms, he, hP⟩ := h
  exact ⟨hdict, hboard, href, hperm, hdir, hcc, ms, he, hP⟩

theorem find_all_options_A (st : SolveState) :
    (find_all_options st).dictionary = st.dictionary ∧
    (find_all_options st).board = st.board ∧
    (find_all_options st).reference_rack = st.reference_rack ∧
    (find_all_options st).rack.Perm st.rack ∧
    MovesExtend st (find_all_options st)
      (fun m => PassA st Direction.across m ∨ PassA st Direction.down m) := by
  unfold find_all_options
  obtain ⟨d1, b1, r1, p1, dr1, c1, ms1, e1, q1⟩ := run_pass_A st
    Direction.across
  obtain ⟨d2, b2, r2, p2, dr2, c2, ms2, e2, q2⟩ :=
    run_pass_A (run_pass st Direction.across) Direction.down
  refine ⟨d2.trans d1, b2.trans b1, r2.trans r1, p2.trans p1, ms1 ++ ms2,
    by rw [e2, e1, List.append_assoc], ?_⟩
  intro m hm
  rcases List.mem_append.mp hm with h | h
  · exact Or.inl (q1 m h)
  · right
    obtain ⟨h1, ⟨i, hi, hia⟩, rk, hle, heq, hsc⟩ := q2 m h
    rw [b1] at hia hsc
    rw [r1] at heq
    exact ⟨h1, ⟨i, hi, hia⟩, rk,
      le_trans hle (le_of_eq (Multiset.coe_eq_coe.mpr p1)), heq, hsc⟩

end Scrab

namespace Scrab

/-- C1: after `find_all_options` the working rack is multiset-equal to the
input rack, and every recorded move's `used_rack` is a sub-multiset of the
input rack. -/
theorem C1_rack_conservation (dict : Trie) (b : Board) (rack : List Char) :
    (((find_all_options (SolveState.init dict b rack)).rack : List Char) :
        Multiset Char) = (↑rack : Multiset Char) ∧
    ∀ m ∈ (find_all_options (SolveState.init dict b rack)).found_moves,
      (↑m.used_rack : Multiset Char) ≤ (↑rack : Multiset Char) := by
  obtain ⟨-, -, -, hperm, ms, he, hP⟩ :=
    find_all_options_A (SolveState.init dict b rack)
  have hinitm : (SolveState.init dict b rack).found_moves = [] := rfl
  have hinitr : (SolveState.init dict b rack).rack = rack := rfl
  have hinitref : (SolveState.init dict b rack).reference_rack = rack := rfl
  refine ⟨by rw [← hinitr]; exact Multiset.coe_eq_coe.mpr hperm, ?_⟩
  intro m hm
  rw [he, hinitm, List.nil_append] at hm
  rcases hP m hm with ⟨-, -, rk, hle, heq, -⟩ | ⟨-, -, rk, hle, heq, -⟩ <;>
    rw [heq, hinitref] <;> exact tsub_le_self

/-- C10: `find_all_options` leaves the board, the dictionary and the
reference rack unchanged, keeps the working rack multiset-equal, and only
appends to the move list. -/
theorem C10_frame (st : SolveState) :
    (find_all_options st).board = st.board ∧
    (find_all_options st).dictionary = st.dictionary ∧
    (find_all_options st).reference_rack = st.reference_rack ∧
    (((find_all_options st).rack : List Char) : Multiset Char) =
      (↑st.rack : Multiset Char) ∧
    ∃ ms, (find_all_options st).found_moves = st.found_moves ++ ms := by
  obtain ⟨hd, hb, hr, hp, ms, he, -⟩ := find_all_options_A st
  exact ⟨hb, hd, hr, Multiset.coe_eq_coe.mpr hp, ms, he⟩

/-- C8: every recorded move spans, within the `len(word)` squares from its
start in its direction, at least one anchor of that direction's pass. -/
theorem C8_anchor_coverage (dict : Trie) (b : Board) (rack : List Char) :
    ∀ m ∈ (find_all_options (SolveState.init dict b rack)).found_moves,
      ∃ i, i < m.word.length ∧
        (after m.direction)^[i] m.start ∈ find_anchors b m.direction := by
  obtain ⟨-, -, -, -, ms, he, hP⟩ :=
    find_all_options_A (SolveState.init dict b rack)
  intro m hm
  rw [he, show (SolveState.init dict b rack).found_moves = [] from rfl,
    List.nil_append] at hm
  have hb : (SolveState.init dict b rack).board = b := rfl
  rcases hP m hm with ⟨h1, ⟨i, hi, hia⟩, -⟩ | ⟨h1, ⟨i, hi, hia⟩, -⟩ <;>
    rw [hb] at hia <;> rw [h1] <;> exact ⟨i, hi, hia⟩

theorem C8_witness :
    ∃ i, i < (['a', 't'] : List Char).length ∧
      (after Direction.across)^[i] ((1 : Int), (1 : Int)) ∈
        find_anchors exBoard Direction.across :=
  C8_anchor_coverage exDict exBoard ['t']
    { word := ['a', 't'], start := (1, 1), direction := Direction.across,
      used_rack := ['t'], score := 0 } (by decide)

/-- C5 as stated is false: the rack handed to `calculate_score` is the
working rack at recording time, after the move's letters were removed, not
the original rack.  With a scoring function returning the length of its
rack argument, the recorded score is 0 while scoring with the original rack
would give 1. -/
theorem C5_counterexample :
    ∃ m ∈ (find_all_options (SolveState.init exDict exBoard
        ['t'])).found_moves,
      m.score ≠ exBoard.calculate_score m.word m.start m.direction ['t'] := by
  decide

/-- C5 amended: the rack passed to `calculate_score` is the working rack at
recording time, i.e. the original rack minus the move's consumed letters
(as a multiset). -/
theorem C5_amended_score_rack (dict : Trie) (b : Board) (rack : List Char) :
    ∀ m ∈ (find_all_options (SolveState.init dict b rack)).found_moves,
      ∃ rk : List Char,
        (↑rk : Multiset Char) =
          (↑rack : Multiset Char) - (↑m.used_rack : Multiset Char) ∧
        m.score = b.calculate_score m.word m.start m.direction rk := by
  obtain ⟨-, -, -, -, ms, he, hP⟩ :=
    find_all_options_A (SolveState.init dict b rack)
  intro m hm
  rw [he, show (SolveState.init dict b rack).found_moves = [] from rfl,
    List.nil_append] at hm
  have hinitr : (SolveState.init dict b rack).rack = rack := rfl
  have hinitref : (SolveState.init dict b rack).reference_rack = rack := rfl
  have hinitb : (SolveState.init dict b rack).board = b := rfl
  rcases hP m hm with ⟨-, -, rk, hle, heq, hsc⟩ | ⟨-, -, rk, hle, heq, hsc⟩ <;>
    rw [hinitr] at hle <;> rw [hinitref] at heq <;> rw [hinitb] at hsc <;>
    exact ⟨rk, by rw [heq]; exact (tsub_tsub_cancel_of_le hle).symm, hsc⟩

theorem C5_witness :
    ∃ rk : List Char,
      (↑rk : Multiset Char) =
        (↑(['t'] : List Char) : Multiset Char) -
          (↑(['t'] : List Char) : Multiset Char) ∧
      (0 : Int) = exBoard.calculate_score ['a', 't'] (1, 1) Direction.across
        rk :=
  C5_amended_score_rack exDict exBoard ['t']
    { word := ['a', 't'], start := (1, 1), direction := Direction.across,
      used_rack := ['t'], score := 0 } (by decide)

/-- C7 as stated is false: the generator performs no rack validation.  A
rack holding the non-alphabetic token '1' is stored unchanged and the
search proceeds and records moves rather than rejecting the rack. -/
theorem C7_counterexample :
    (SolveState.init exDict exBoard ['t', '1']).rack = ['t', '1'] ∧
    (find_all_options (SolveState.init exDict exBoard
      ['t', '1'])).found_moves ≠ [] := by
  exact ⟨rfl, by decide⟩

/-- C7 amended: no validation happens at generator entry; every rack,
malformed tokens included, is stored as given, and the search runs to
completion on it (restoring the rack as a multiset). -/
theorem C7_amended_no_validation (dict : Trie) (b : Board)
    (rack : List Char) :
    (SolveState.init dict b rack).rack = rack ∧
    (SolveState.init dict b rack).reference_rack = rack ∧
    (((find_all_options (SolveState.init dict b rack)).rack : List Char) :
        Multiset Char) = (↑rack : Multiset Char) := by
  obtain ⟨-, -, -, hperm, -⟩ :=
    find_all_options_A (SolveState.init dict b rack)
  exact ⟨rfl, rfl, Multiset.coe_eq_coe.mpr hperm⟩

end Scrab

/-! Master invariant B: every appended move's word is a dictionary word, and
each of its letters sitting on an empty square is in that square's
cross-check set. -/

namespace Scrab

theorem Trie.lookup_append {t n n' : Trie} {w : List Char} {c : Char}
    (h : t.lookup w = some n) (hc : n.children.lookup c = some n') :
    t.lookup (w ++ [c]) = some n' := by
  induction w generalizing t with
  | nil =>
    obtain rfl : t = n := by simpa [Trie.lookup] using h
    simp [Trie.lookup, hc]
  | cons x xs ih =>
    rw [List.cons_append]
    rw [Trie.lookup] at h ⊢
    cases hx : t.children.lookup x with
    | none => rw [hx] at h; exact Option.noConfusion h
    | some t2 => rw [hx] at h; exact ih h

theorem wfbF_zero_false {t : Trie} : wfbF 0 t = false := rfl

theorem Trie.WFp.nodup {t : Trie} (h : t.WFp) :
    (t.children.map Prod.fst).Nodup := by
  obtain ⟨fuel, hf⟩ := h
  cases fuel with
  | zero => exact absurd hf (by simp [wfbF])
  | succ fuel =>
    cases t with
    | mk w cs =>
      rw [wfbF] at hf
      exact of_decide_eq_true (Bool.and_eq_true _ _ |>.mp hf).1

theorem Trie.WFp.child {t t' : Trie} {c : Char} (h : t.WFp)
    (hm : (c, t') ∈ t.children) : t'.WFp := by
  obtain ⟨fuel, hf⟩ := h
  cases fuel with
  | zero => exact absurd hf (by simp [wfbF])
  | succ fuel =>
    cases t with
    | mk w cs =>
      rw [wfbF] at hf
      have := (Bool.and_eq_true _ _ |>.mp hf).2
      rw [List.all_eq_true] at this
      exact ⟨fuel, this (c, t') hm⟩

theorem Trie.WFp.of_lookup {t n : Trie} {w : List Char} (h : t.WFp)
    (hl : t.lookup w = some n) : n.WFp := by
  induction w generalizing t with
  | nil =>
    obtain rfl : t = n := by simpa [Trie.lookup] using hl
    exact h
  | cons x xs ih =>
    rw [Trie.lookup] at hl
    cases hx : t.children.lookup x with
    | none => rw [hx] at hl; exact absurd hl (by simp)
    | some t2 =>
      rw [hx] at hl
      exact ih (h.child (lookup_mem hx)) hl

theorem Trie.children_lookup_of_mem {t t' : Trie} {c : Char} (h : t.WFp)
    (hm : (c, t') ∈ t.children) : t.children.lookup c = some t' :=
  mem_lookup_of_nodup h.nodup hm

theorem is_word_str_of_lookup {t n : Trie} {w : List Char}
    (hl : t.lookup w = some n) (hw : n.is_word = true) :
    t.is_word_str w = true := by
  unfold Trie.is_word_str
  rw [hl]
  exact hw

/-- Per-move conclusion of master invariant B. -/
def PB (st0 : SolveState) (m : Move) : Prop :=
  m.direction = st0.direction ∧
  st0.dictionary.is_word_str m.word = true ∧
  ∀ (i : Nat) (hi : i < m.word.length),
    st0.board.is_empty ((after st0.direction)^[i] m.start) = true →
    m.word.get ⟨i, hi⟩ ∈
      cc_get st0.cross_check_results ((after st0.direction)^[i] m.start)

theorem PB_mono {st st' : SolveState} {m : Move} (hctx : SameCtx st st')
    (h : PB st' m) : PB st m := by
  obtain ⟨hdict, hboard, href, hcc, hdir⟩ := hctx
  obtain ⟨h1, h2, h3⟩ := h
  rw [hdir] at h1
  rw [hdict] at h2
  refine ⟨h1, h2, ?_⟩
  intro i hi hemp
  rw [← hboard, ← hdir] at hemp
  rw [← hcc, ← hdir]
  exact h3 i hi hemp

/-- The letters of `w`, read backwards from `q`, respect the cross-check
table wherever they sit on an empty square. -/
def SpanC (st : SolveState) (w : List Char) (q : Pos) : Prop :=
  ∀ (i : Nat) (hi : i < w.length),
    st.board.is_empty ((before st.direction)^[w.length - i] q) = true →
    w.get ⟨i, hi⟩ ∈
      cc_get st.cross_check_results ((before st.direction)^[w.length - i] q)

theorem spanC_transport {st st' : SolveState} {w : List Char} {q : Pos}
    (hctx : SameCtx st st') (h : SpanC st w q) : SpanC st' w q := by
  obtain ⟨hdict, hboard, href, hcc, hdir⟩ := hctx
  intro i hi hemp
  rw [hboard, hdir] at hemp
  rw [hcc, hdir]
  exact h i hi hemp

theorem spanC_extend {st : SolveState} {w : List Char} {q : Pos} {c : Char}
    (h : SpanC st w q)
    (hc : st.board.is_empty q = true →
      c ∈ cc_get st.cross_check_results q) :
    SpanC st (w ++ [c]) (after st.direction q) := by
  intro i hi hemp
  have hi1 : i < w.length + 1 := by
    simpa using hi
  by_cases hiw : i < w.length
  · have hpos : (before st.direction)^[(w ++ [c]).length - i]
        (after st.direction q) = (before st.direction)^[w.length - i] q := by
      simp only [List.length_append, List.length_singleton]
      have he : w.length + 1 - i = (w.length - i) + 1 := by omega
      rw [he, Function.iterate_succ_apply, before_after]
    rw [hpos] at hemp
    rw [hpos]
    rw [List.get_append i hiw]
    exact h i hiw hemp
  · have hieq : i = w.length := by omega
    subst hieq
    have hpos : (before st.direction)^[(w ++ [c]).length - w.length]
        (after st.direction q) = q := by
      simp only [List.length_append, List.length_singleton]
      have he : w.length + 1 - w.length = 1 := by omega
      rw [he]
      simp [before_after]
    rw [hpos] at hemp
    rw [hpos]
    have hget : (w ++ [c]).get ⟨w.length, hi⟩ = c := by simp
    rw [hget]
    exact hc hemp

theorem PB_recorded {st : SolveState} {w : List Char} {q : Pos} {node : Trie}
    (H2 : st.dictionary.lookup w = some node) (hw : node.is_word = true)
    (hsp : SpanC st w q) :
    PB st (recorded_move st w (before st.direction q)) := by
  refine ⟨rfl, is_word_str_of_lookup H2 hw, ?_⟩
  intro i hi hemp
  have hst := recorded_move_start st w q
  rw [hst] at hemp
  have hiw : i < w.length := hi
  rw [afterN_beforeN st.direction q i w.length (by omega)] at hemp
  show w.get ⟨i, hiw⟩ ∈ cc_get st.cross_check_results
    ((after st.direction)^[i] (recorded_move st w
      (before st.direction q)).start)
  rw [hst, afterN_beforeN st.direction q i w.length (by omega)]
  exact hsp i hiw hemp

end Scrab

namespace Scrab

theorem extend_children_B
    (ea_f : SolveState → List Char → Trie → Pos → Bool → SolveState)
    (Hea : ∀ s w t p af, s.dictionary.lookup w = some t → Trie.WFp t →
      SpanC s w p → Pres (PB s) s (ea_f s w t p af)) :
    ∀ (cs : List (Char × Trie)) (st : SolveState) (w : List Char) (q : Pos),
      (∀ pr ∈ cs, st.dictionary.lookup (w ++ [pr.1]) = some pr.2 ∧
        Trie.WFp pr.2) →
      SpanC st w q → st.board.is_empty q = true →
      Pres (PB st) st (extend_children ea_f st w cs q) := by
  intro cs
  induction cs with
  | nil =>
    intro st w q _ _ _
    rw [extend_children]
    exact pres_refl _ _
  | cons hd rest ih =>
    intro st w q Hcs Hsp Hq
    obtain ⟨c, child⟩ := hd
    rw [extend_children]
    split
    · next hguard =>
      dsimp only
      have hlk := (Hcs (c, child) (List.mem_cons_self _ _)).1
      have hwf := (Hcs (c, child) (List.mem_cons_self _ _)).2
      have hsp1 : SpanC { st with rack := st.rack.erase c } (w ++ [c])
          (after st.direction q) := spanC_extend Hsp (fun _ => hguard.2)
      have hea := Hea { st with rack := st.rack.erase c } (w ++ [c]) child
        (after st.direction q) true hlk hwf hsp1
      have hea2 := pres_mono hea (fun m hm =>
        @PB_mono st { st with rack := st.rack.erase c } m
          ⟨rfl, rfl, rfl, rfl, rfl⟩ hm)
      have hres := pres_restore hguard.1 hea2
      refine pres_trans hres (pres_mono (ih _ w q ?_ ?_ ?_) ?_)
      · intro pr hpr
        have hh := Hcs pr (List.mem_cons_of_mem _ hpr)
        rw [hres.1.1]
        exact hh
      · exact spanC_transport hres.1 Hsp
      · rw [hres.1.2.1]
        exact Hq
      · intro m hm
        exact PB_mono hres.1 hm
    · next =>
      exact ih st w q (fun pr hpr => Hcs pr (List.mem_cons_of_mem _ hpr))
        Hsp Hq

theorem extend_after_step_B
    (ea_f : SolveState → List Char → Trie → Pos → Bool → SolveState)
    (Hea : ∀ s w t p af, s.dictionary.lookup w = some t → Trie.WFp t →
      SpanC s w p → Pres (PB s) s (ea_f s w t p af))
    (st st1 : SolveState) (w : List Char) (node : Trie) (q : Pos)
    (hpre : Pres (PB st) st st1)
    (H2 : st.dictionary.lookup w = some node) (Hwf : Trie.WFp node)
    (Hsp : SpanC st w q) :
    Pres (PB st) st (extend_after_step ea_f st1 w node q) := by
  obtain ⟨hctx, hperm, hmov⟩ := hpre
  obtain ⟨hdict, hboard, href, hcc, hdir⟩ := hctx
  have hpre' : Pres (PB st) st st1 :=
    ⟨⟨hdict, hboard, href, hcc, hdir⟩, hperm, hmov⟩
  unfold extend_after_step
  by_cases hib : st1.board.in_bounds q = true
  · rw [if_pos hib]
    by_cases hie : st1.board.is_empty q = true
    · rw [if_pos hie]
      have hcs : ∀ pr ∈ node.children,
          st1.dictionary.lookup (w ++ [pr.1]) = some pr.2 ∧
            Trie.WFp pr.2 := by
        intro pr hpr
        refine ⟨?_, Hwf.child hpr⟩
        rw [hdict]
        exact Trie.lookup_append H2 (Trie.children_lookup_of_mem Hwf hpr)
      refine pres_trans hpre'
        (pres_mono (extend_children_B ea_f Hea node.children st1 w q hcs
          (spanC_transport ⟨hdict, hboard, href, hcc, hdir⟩ Hsp) hie) ?_)
      intro m hm
      exact PB_mono ⟨hdict, hboard, href, hcc, hdir⟩ hm
    · rw [if_neg hie]
      dsimp only
      split
      · next child hlk =>
        have h2x : st1.dictionary.lookup (w ++ [st1.board.get_tile q]) =
            some child := by
          rw [hdict]
          exact Trie.lookup_append H2 hlk
        have hwfx : Trie.WFp child := Hwf.child (lookup_mem hlk)
        have hspx : SpanC st1 (w ++ [st1.board.get_tile q])
            (after st1.direction q) := by
          apply spanC_extend
            (spanC_transport ⟨hdict, hboard, href, hcc, hdir⟩ Hsp)
          intro hemp
          exact absurd hemp hie
        have hea := Hea st1 _ child _ true h2x hwfx hspx
        refine pres_trans hpre' (pres_mono hea ?_)
        intro m hm
        exact PB_mono ⟨hdict, hboard, href, hcc, hdir⟩ hm
      · next => exact hpre'
  · rw [if_neg hib]
    exact hpre'

theorem extend_after_B :
    ∀ (fuel : Nat) (st : SolveState) (w : List Char) (node : Trie) (q : Pos)
      (af : Bool),
      st.dictionary.lookup w = some node → Trie.WFp node → SpanC st w q →
      Pres (PB st) st (extend_after fuel st w node q af) := by
  intro fuel
  induction fuel with
  | zero =>
    intro st w node q af _ _ _
    rw [extend_after]
    exact pres_refl _ _
  | succ fuel ih =>
    intro st w node q af H2 Hwf Hsp
    rw [extend_after]
    by_cases hcond :
        ((!st.board.is_filled q) && node.is_word && af) = true
    · rw [if_pos hcond]
      have hword : node.is_word = true :=
        (Bool.and_eq_true _ _ |>.mp
          ((Bool.and_eq_true _ _ |>.mp hcond).1)).2
      exact extend_after_step_B _
        (fun s w2 t p af2 g1 g2 g3 => ih s w2 t p af2 g1 g2 g3) st _ w node
        q (pres_legal_move (PB_recorded H2 hword Hsp)) H2 Hwf Hsp
    · rw [if_neg hcond]
      exact extend_after_step_B _
        (fun s w2 t p af2 g1 g2 g3 => ih s w2 t p af2 g1 g2 g3) st st w
        node q (pres_refl _ _) H2 Hwf Hsp

end Scrab

namespace Scrab

theorem cc_alphabet_of_non_anchor {dict : Trie} {b : Board} {d : Direction}
    {p : Pos} (he : b.is_empty p = true) (hn : p ∉ find_anchors b d) :
    cc_get (cross_check dict b d) p = alphabet := by
  obtain ⟨-, -, h3, h4⟩ := neighbors_not_filled_of_not_anchor he hn
  rw [cc_get_cross_check he, legal_letters_alphabet h3 h4]

theorem before_children_B (a : Pos) (L lvl : Nat)
    (bp_f : SolveState → List Char → Trie → SolveState)
    (Hbp : ∀ s w2 t, s.dictionary.lookup w2 = some t → Trie.WFp t →
      (∀ c ∈ w2, c ∈ alphabet) → (∀ c ∈ s.rack, c ∈ alphabet) →
      w2.length + lvl ≤ L →
      (∀ j, 1 ≤ j → j ≤ L →
        s.board.is_empty ((before s.direction)^[j] a) = true ∧
        alphabet ⊆ cc_get s.cross_check_results
          ((before s.direction)^[j] a)) →
      Pres (PB s) s (bp_f s w2 t)) :
    ∀ (cs : List (Char × Trie)) (st : SolveState) (w : List Char),
      (∀ pr ∈ cs, st.dictionary.lookup (w ++ [pr.1]) = some pr.2 ∧
        Trie.WFp pr.2) →
      (∀ c ∈ w, c ∈ alphabet) → (∀ c ∈ st.rack, c ∈ alphabet) →
      w.length + 1 + lvl ≤ L →
      (∀ j, 1 ≤ j → j ≤ L →
        st.board.is_empty ((before st.direction)^[j] a) = true ∧
        alphabet ⊆ cc_get st.cross_check_results
          ((before st.direction)^[j] a)) →
      Pres (PB st) st (before_children bp_f st w cs) := by
  intro cs
  induction cs with
  | nil =>
    intro st w _ _ _ _ _
    rw [before_children]
    exact pres_refl _ _
  | cons hd rest ih =>
    intro st w Hcs Hw Hrack HL HBP
    obtain ⟨c, child⟩ := hd
    rw [before_children]
    split
    · next hmem =>
      dsimp only
      have hbp := Hbp { st with rack := st.rack.erase c } (w ++ [c]) child
        (Hcs (c, child) (List.mem_cons_self _ _)).1
        (Hcs (c, child) (List.mem_cons_self _ _)).2
        (fun x hx => by
          rcases List.mem_append.mp hx with h | h
          · exact Hw x h
          · rw [List.mem_singleton] at h
            subst h
            exact Hrack x hmem)
        (fun x hx => Hrack x (List.erase_subset _ _ hx))
        (by simpa using HL)
        HBP
      have hbp2 := pres_mono hbp (fun m hm =>
        @PB_mono st { st with rack := st.rack.erase c } m
          ⟨rfl, rfl, rfl, rfl, rfl⟩ hm)
      have hres := pres_restore hmem hbp2
      refine pres_trans hres (pres_mono (ih _ w ?_ Hw ?_ HL ?_) ?_)
      · intro pr hpr
        rw [hres.1.1]
        exact Hcs pr (List.mem_cons_of_mem _ hpr)
      · intro x hx
        exact Hrack x (hres.2.1.mem_iff.mp hx)
      · intro j hj1 hj2
        obtain ⟨he, hsub⟩ := HBP j hj1 hj2
        constructor
        · rw [hres.1.2.1, hres.1.2.2.2.2]
          exact he
        · rw [hres.1.2.2.2.1, hres.1.2.2.2.2]
          exact hsub
      · intro m hm
        exact PB_mono hres.1 hm
    · next =>
      exact ih st w (fun pr hpr => Hcs pr (List.mem_cons_of_mem _ hpr)) Hw
        Hrack HL HBP

theorem before_part_B (a : Pos) :
    ∀ (limit L : Nat) (st : SolveState) (w : List Char) (node : Trie),
      st.dictionary.lookup w = some node → Trie.WFp node →
      (∀ c ∈ w, c ∈ alphabet) → (∀ c ∈ st.rack, c ∈ alphabet) →
      w.length + limit ≤ L →
      (∀ j, 1 ≤ j → j ≤ L →
        st.board.is_empty ((before st.direction)^[j] a) = true ∧
        alphabet ⊆ cc_get st.cross_check_results
          ((before st.direction)^[j] a)) →
      Pres (PB st) st (before_part st w node a limit) := by
  intro limit
  induction limit with
  | zero =>
    intro L st w node H2 Hwf Hw Hrack HL HBP
    rw [before_part]
    apply extend_after_B node.size st w node a false H2 Hwf
    intro i hi hemp
    exact (HBP (w.length - i) (by omega) (by omega)).2
      (Hw _ (List.get_mem w _ _))
  | succ l ih =>
    intro L st w node H2 Hwf Hw Hrack HL HBP
    rw [before_part]
    have hsp : SpanC st w a := fun i hi hemp =>
      (HBP (w.length - i) (by omega) (by omega)).2
        (Hw _ (List.get_mem w _ _))
    have h1 := extend_after_B node.size st w node a false H2 Hwf hsp
    have hcs : ∀ pr ∈ node.children,
        (extend_after node.size st w node a false).dictionary.lookup
          (w ++ [pr.1]) = some pr.2 ∧ Trie.WFp pr.2 := by
      intro pr hpr
      rw [h1.1.1]
      exact ⟨Trie.lookup_append H2 (Trie.children_lookup_of_mem Hwf hpr),
        Hwf.child hpr⟩
    refine pres_trans h1
      (pres_mono (before_children_B a L l _
        (fun s w2 t g1 g2 g3 g4 g5 g6 => ih L s w2 t g1 g2 g3 g4 g5 g6)
        node.children _ w hcs Hw ?_ ?_ ?_) ?_)
    · intro x hx
      exact Hrack x (h1.2.1.mem_iff.mp hx)
    · omega
    · intro j hj1 hj2
      obtain ⟨he, hsub⟩ := HBP j hj1 hj2
      constructor
      · rw [h1.1.2.1, h1.1.2.2.2.2]
        exact he
      · rw [h1.1.2.2.2.1, h1.1.2.2.2.2]
        exact hsub
    · intro m hm
      exact PB_mono h1.1 hm

theorem run_anchor_B (st : SolveState) (anchors : List Pos) (a : Pos)
    (Hwf : Trie.WFp st.dictionary)
    (Hrack : ∀ c ∈ st.rack, c ∈ alphabet)
    (Hcc : st.cross_check_results =
      cross_check st.dictionary st.board st.direction)
    (Hanch : anchors = find_anchors st.board st.direction) :
    Pres (PB st) st (run_anchor st anchors a) := by
  unfold run_anchor
  by_cases hf : st.board.is_filled (before st.direction a) = true
  · rw [if_pos hf]
    dsimp only
    split
    · next pw_node hlk =>
      apply extend_after_B pw_node.size st _ pw_node a false hlk
        (Hwf.of_lookup hlk)
      intro i hi hemp
      have hfil := @scan_prepend_filled st.board (before st.direction)
        st.board.size a
        ((scan_prepend st.board (before st.direction) st.board.size
          a).length - i) (by omega) (by omega)
      rw [filled_not_empty hfil] at hemp
      exact absurd hemp (by simp)
    · next => exact pres_refl _ _
  · rw [if_neg hf]
    apply before_part_B a
      (count_limit st.board st.direction anchors st.board.size a)
      (count_limit st.board st.direction anchors st.board.size a) st []
      st.dictionary.root rfl Hwf (by simp) Hrack (by simp)
    intro j hj1 hj2
    obtain ⟨he, hna⟩ := count_limit_spec st.board.size a j hj1 hj2
    rw [Hanch] at hna
    refine ⟨he, ?_⟩
    rw [Hcc, cc_alphabet_of_non_anchor he hna]
    exact fun x hx => hx

end Scrab

namespace Scrab

/-- Per-move conclusion of one direction pass for master invariant B. -/
def PassB (st : SolveState) (d : Direction) (m : Move) : Prop :=
  m.direction = d ∧ st.dictionary.is_word_str m.word = true ∧
  ∀ (i : Nat) (hi : i < m.word.length),
    st.board.is_empty ((after d)^[i] m.start) = true →
    m.word.get ⟨i, hi⟩ ∈
      cc_get (cross_check st.dictionary st.board d) ((after d)^[i] m.start)

theorem foldl_run_anchor_B (st2 : SolveState) (anchors : List Pos)
    (Hwf : Trie.WFp st2.dictionary)
    (Hrack : ∀ c ∈ st2.rack, c ∈ alphabet)
    (Hcc : st2.cross_check_results =
      cross_check st2.dictionary st2.board st2.direction)
    (Hanch : anchors = find_anchors st2.board st2.direction) :
    ∀ (sub : List Pos) (s : SolveState), Pres (PB st2) st2 s →
      Pres (PB st2) st2
        (sub.foldl (fun s2 a => run_anchor s2 anchors a) s) := by
  intro sub
  induction sub with
  | nil =>
    intro s hs
    rw [List.foldl_nil]
    exact hs
  | cons x rest ih =>
    intro s hs
    rw [List.foldl_cons]
    apply ih
    obtain ⟨⟨hdict, hboard, href, hcc2, hdir⟩, hperm, hmov⟩ := hs
    have hs' : Pres (PB st2) st2 s :=
      ⟨⟨hdict, hboard, href, hcc2, hdir⟩, hperm, hmov⟩
    have hrb := run_anchor_B s anchors x (by rw [hdict]; exact Hwf)
      (fun c hc => Hrack c (hperm.mem_iff.mp hc))
      (by rw [hcc2, hdict, hboard, hdir]; exact Hcc)
      (by rw [hboard, hdir]; exact Hanch)
    exact pres_trans hs' (pres_mono hrb (fun m hm =>
      PB_mono ⟨hdict, hboard, href, hcc2, hdir⟩ hm))

theorem run_pass_B (st : SolveState) (d : Direction)
    (Hwf : Trie.WFp st.dictionary)
    (Hrack : ∀ c ∈ st.rack, c ∈ alphabet) :
    MovesExtend st (run_pass st d) (PassB st d) := by
  unfold run_pass
  dsimp only
  have h := foldl_run_anchor_B
    { st with
      direction := d,
      cross_check_results := cross_check st.dictionary st.board d }
    (find_anchors st.board d) Hwf Hrack rfl rfl (find_anchors st.board d) _
    (pres_refl _ _)
  obtain ⟨-, -, ms, he, hP⟩ := h
  exact ⟨ms, he, fun m hm => hP m hm⟩

theorem find_all_options_B (st : SolveState)
    (Hwf : Trie.WFp st.dictionary)
    (Hrack : ∀ c ∈ st.rack, c ∈ alphabet) :
    MovesExtend st (find_all_options st)
      (fun m => PassB st Direction.across m ∨ PassB st Direction.down m) := by
  unfold find_all_options
  obtain ⟨d1, b1, r1, p1, dr1, c1, -⟩ := run_pass_A st Direction.across
  obtain ⟨ms1, e1, q1⟩ := run_pass_B st Direction.across Hwf Hrack
  obtain ⟨ms2, e2, q2⟩ := run_pass_B (run_pass st Direction.across)
    Direction.down (by rw [d1]; exact Hwf)
    (fun c hc => Hrack c (p1.mem_iff.mp hc))
  refine ⟨ms1 ++ ms2, by rw [e2, e1, List.append_assoc], ?_⟩
  intro m hm
  rcases List.mem_append.mp hm with h | h
  · exact Or.inl (q1 m h)
  · right
    obtain ⟨h1, h2, h3⟩ := q2 m h
    rw [d1, b1] at h3
    rw [d1] at h2
    exact ⟨h1, h2, h3⟩

/-- C3: every recorded move's word is a dictionary word; each of its letters
sitting on an empty square is in that square's cross-check set for the
move's direction, and hence the perpendicular word it completes (when one
exists) is a dictionary word.  Hypotheses: the trie obeys the unique-keys
contract, and the rack holds lowercase letters. -/
theorem C3_dictionary_validity (dict : Trie) (b : Board) (rack : List Char)
    (Hwf : dict.wfb = true) (Hrack : ∀ c ∈ rack, c ∈ alphabet) :
    ∀ m ∈ (find_all_options (SolveState.init dict b rack)).found_moves,
      dict.is_word_str m.word = true ∧
      ∀ (i : Nat) (hi : i < m.word.length),
        b.is_empty ((after m.direction)^[i] m.start) = true →
        (m.word.get ⟨i, hi⟩ ∈
            cc_get (cross_check dict b m.direction)
              ((after m.direction)^[i] m.start) ∧
          (¬ (scan_prepend b (before_cross m.direction) b.size
                ((after m.direction)^[i] m.start) = [] ∧
              scan_append b (after_cross m.direction) b.size
                ((after m.direction)^[i] m.start) = []) →
            dict.is_word_str
              (scan_prepend b (before_cross m.direction) b.size
                  ((after m.direction)^[i] m.start) ++
                m.word.get ⟨i, hi⟩ ::
                  scan_append b (after_cross m.direction) b.size
                    ((after m.direction)^[i] m.start)) = true)) := by
  obtain ⟨ms, he, hP⟩ := find_all_options_B (SolveState.init dict b rack)
    ⟨dict.size, Hwf⟩ Hrack
  intro m hm
  rw [he, show (SolveState.init dict b rack).found_moves = [] from rfl,
    List.nil_append] at hm
  rcases hP m hm with hc | hc <;>
    (obtain ⟨h1, h2, h3⟩ := hc
     rw [h1]
     refine ⟨h2, ?_⟩
     intro i hi hemp
     have hcc := h3 i hi hemp
     rw [show (SolveState.init dict b rack).dictionary = dict from rfl,
       show (SolveState.init dict b rack).board = b from rfl] at hcc
     refine ⟨hcc, ?_⟩
     intro hnruns
     rw [cc_get_cross_check hemp] at hcc
     exact ((legal_letters_spec dict b _ _).2 hnruns
       (m.word.get ⟨i, hi⟩) |>.mp hcc).2)

theorem C3_witness :
    exDict.is_word_str ['a', 't'] = true ∧
    ∀ (i : Nat) (hi : i < (['a', 't'] : List Char).length),
      exBoard.is_empty
        ((after Direction.across)^[i] ((1 : Int), (1 : Int))) = true →
      ((['a', 't'] : List Char).get ⟨i, hi⟩ ∈
          cc_get (cross_check exDict exBoard Direction.across)
            ((after Direction.across)^[i] ((1 : Int), (1 : Int))) ∧
        (¬ (scan_prepend exBoard (before_cross Direction.across)
              exBoard.size
              ((after Direction.across)^[i] ((1 : Int), (1 : Int))) = [] ∧
            scan_append exBoard (after_cross Direction.across) exBoard.size
              ((after Direction.across)^[i] ((1 : Int), (1 : Int))) = []) →
          exDict.is_word_str
            (scan_prepend exBoard (before_cross Direction.across)
                exBoard.size
                ((after Direction.across)^[i] ((1 : Int), (1 : Int))) ++
              (['a', 't'] : List Char).get ⟨i, hi⟩ ::
                scan_append exBoard (after_cross Direction.across)
                  exBoard.size
                  ((after Direction.across)^[i] ((1 : Int), (1 : Int)))) =
            true)) :=
  C3_dictionary_validity exDict exBoard ['t'] (by decide) (by decide)
    { word := ['a', 't'], start := (1, 1), direction := Direction.across,
      used_rack := ['t'], score := 0 } (by decide)

end Scrab
